import Mathlib

/-!
# Verification of the EUKARYOME preprocessing pipeline

A shallow embedding of `EUKARYOME_preprocossing_pipe.py` (the duplicate
elimination and header-normalization pipeline) together with proofs and
refutations of the specified properties.

Python strings are modelled as `List Char`; files as `List (List Char)`
(one entry per line, newline characters not included, since every write in
the pipeline appends exactly one newline per written line).
-/

/-! ## Definitions: the embedded pipeline operations -/

/-- `s.dropWhile p` from the right: removes the maximal trailing run of
characters satisfying `p` (the right half of Python's `str.strip`). -/
def stripEndP (p : Char → Bool) : List Char → List Char
  | [] => []
  | c :: rest =>
    match stripEndP p rest with
    | [] => if p c then [] else [c]
    | r => c :: r

/-- Python `str.strip(chars)`: remove leading and trailing characters
satisfying `p`. -/
def pyStripP (p : Char → Bool) (s : List Char) : List Char :=
  stripEndP p (s.dropWhile p)

/-- Python `str.strip()` (no argument): strip surrounding whitespace. -/
def pyStrip (s : List Char) : List Char :=
  pyStripP Char.isWhitespace s

/-- Python `str.split(';')`: split on every semicolon; never returns the
empty list (`''.split(';') == ['']`). -/
def splitSemi : List Char → List (List Char)
  | [] => [[]]
  | c :: rest =>
    if c = ';' then [] :: splitSemi rest
    else
      match splitSemi rest with
      | [] => [[c]]
      | g :: gs => (c :: g) :: gs

/-- Python `';'.join(groups)`. -/
def joinSemi : List (List Char) → List Char
  | [] => []
  | [g] => g
  | g :: gs => g ++ ';' :: joinSemi gs

/-- The allowed nucleotide characters (source constant `VALID_NUCLEOTIDES`). -/
def VALID_NUCLEOTIDES : List Char :=
  ['A', 'C', 'G', 'T', 'N', 'R', 'Y', 'S', 'W', 'K', 'M', 'B', 'D', 'H', 'V']

/-- `filter_nucleotide_sequence(seq)`: uppercase, then delete every character
outside `VALID_NUCLEOTIDES` (the source does this with
`re.sub('[^ACGTNRYSWKMBDHV]', '', seq.upper())`; the character class contains
no regex metacharacters, so the substitution is exactly a filter). -/
def filter_nucleotide_sequence (seq : List Char) : List Char :=
  (seq.map Char.toUpper).filter (fun c => c ∈ VALID_NUCLEOTIDES)

/-- `extract_accession_id(header)`: `None` unless the header starts with
`'>'`; otherwise the first `';'`-delimited field with all leading `'>'`
characters removed (`parts[0].lstrip('>')`). -/
def extract_accession_id (header : List Char) : Option (List Char) :=
  if header.head? = some '>' then
    some (((splitSemi header).headD []).dropWhile (fun c => c = '>'))
  else none

/-- `clean_taxonomic_header(header, expected_fields=9)`: keep only the first
`expected_fields` semicolon-delimited fields of a `'>'`-header. -/
def clean_taxonomic_header (header : List Char) (expected_fields : Nat := 9) :
    List Char :=
  if header.head? = some '>' then
    joinSemi ((splitSemi header).take expected_fields)
  else header

/-- Models `normalize_to_ascii` (library call: `unicodedata.normalize('NFKD', text)`
followed by removal of combining characters). ASCII characters are NFKD-fixed
and non-combining, so on the ASCII inputs of the model it is the identity;
the Unicode tables themselves live in the Python standard library, not in the
repository. -/
def normalize_to_ascii (s : List Char) : List Char := s

/-- The per-line body of `preprocess_single_fasta`'s loop: strip the line;
if it is a header line (starts with `'>'` or `'">'`), strip wrapping quotes,
delete remaining quotes, truncate to 9 fields and ASCII-normalize; otherwise
leave the (stripped) line alone. -/
def preprocess_line (line : List Char) : List Char :=
  let l := pyStrip line
  if l.head? = some '>' ∨ l.take 2 = ['"', '>'] then
    let l1 := if l.take 2 = ['"', '>'] then pyStripP (fun c => c = '"') l else l
    let l2 := l1.filter (fun c => ¬ c = '"')
    normalize_to_ascii (clean_taxonomic_header l2)
  else l

/-- Per-line body of `standardize_dereplicated_headers_file`: on a header
line take `line[1:].strip()`, split on `';'`, keep the first
`expected_fields` fields, rejoin and append one trailing `';'`; other lines
are written unchanged. -/
def standardize_line (line : List Char) (expected_fields : Nat := 8) :
    List Char :=
  if line.head? = some '>' then
    '>' :: (joinSemi ((splitSemi (pyStrip (line.drop 1))).take expected_fields) ++ [';'])
  else line

/-- `standardize_dereplicated_headers_file` as a file transform. -/
def standardize_dereplicated_headers_file (lines : List (List Char))
    (expected_fields : Nat := 8) : List (List Char) :=
  lines.map (fun l => standardize_line l expected_fields)

/-- Python dict assignment `m[k] = v` for a key already present: replace the
stored value, keeping the key's position. -/
def replaceKey (k : List Char) (v : List Char × List Char) :
    List (List Char × (List Char × List Char)) →
    List (List Char × (List Char × List Char))
  | [] => []
  | (k', v') :: rest =>
    if k' = k then (k', v) :: rest else (k', v') :: replaceKey k v rest

/-- The cleaned sequence of a record body:
`filter_nucleotide_sequence("".join(current_seq).replace('-', ''))`. -/
def cleanSeq (body : List (List Char)) : List Char :=
  filter_nucleotide_sequence (body.flatten.filter (fun c => ¬ c = '-'))

/-- The duplicate-elimination insertion step shared by the loop body and the
final flush: extract the accession id; drop the record when the id is absent
or empty (Python falsiness of `None` and `''`); otherwise store the record,
replacing an existing entry only when the new cleaned sequence is strictly
longer, and appending the key to `order` on first appearance. -/
def insertRecord (m : List (List Char × (List Char × List Char)))
    (ord : List (List Char)) (h s : List Char) :
    List (List Char × (List Char × List Char)) × List (List Char) :=
  match extract_accession_id h with
  | none => (m, ord)
  | some acc =>
    if acc = [] then (m, ord)
    else
      match List.lookup acc m with
      | some hs => if hs.2.length < s.length then (replaceKey acc (h, s) m, ord)
                   else (m, ord)
      | none => (m ++ [(acc, (h, s))], ord ++ [acc])

/-- Streaming state of `eliminate_duplicates_in_file`. -/
structure DState where
  seqs : List (List Char × (List Char × List Char))
  order : List (List Char)
  cur_header : Option (List Char)
  cur_seq : List (List Char)

/-- One iteration of the read loop of `eliminate_duplicates_in_file`:
strip the line, skip it when empty, flush the previous record and start a
new one on a `'>'` line, otherwise accumulate the line into the current
record body. -/
def dedupStep (st : DState) (raw : List Char) : DState :=
  let line := pyStrip raw
  if line = [] then st
  else if line.head? = some '>' then
    match st.cur_header with
    | some h =>
      let p := insertRecord st.seqs st.order h (cleanSeq st.cur_seq)
      ⟨p.1, p.2, some line, []⟩
    | none => ⟨st.seqs, st.order, some line, []⟩
  else ⟨st.seqs, st.order, st.cur_header, st.cur_seq ++ [line]⟩

/-- The flush of the final record after the loop. -/
def dedupFinal (st : DState) :
    List (List Char × (List Char × List Char)) × List (List Char) :=
  match st.cur_header with
  | some h => insertRecord st.seqs st.order h (cleanSeq st.cur_seq)
  | none => (st.seqs, st.order)

/-- `eliminate_duplicates_in_file` on the lines of one input file: the list
of `(header, sequence)` pairs written to the output file, one record per
retained key, in `order`. -/
def eliminate_duplicates_in_file (lines : List (List Char)) :
    List (List Char × List Char) :=
  let st := lines.foldl dedupStep ⟨[], [], none, []⟩
  let p := dedupFinal st
  p.2.filterMap (fun k => List.lookup k p.1)

/-- Record-parsing state: records so far plus the current accumulator. -/
structure PState where
  recs : List (List Char × List Char)
  cur_header : Option (List Char)
  cur_seq : List (List Char)

/-- Record-grouping analogue of `dedupStep`. -/
def parseStep (st : PState) (raw : List Char) : PState :=
  let line := pyStrip raw
  if line = [] then st
  else if line.head? = some '>' then
    match st.cur_header with
    | some h => ⟨st.recs ++ [(h, cleanSeq st.cur_seq)], some line, []⟩
    | none => ⟨st.recs, some line, []⟩
  else ⟨st.recs, st.cur_header, st.cur_seq ++ [line]⟩

/-- The records of one input file, in file order, with cleaned sequences:
the header/body grouping performed by `eliminate_duplicates_in_file`. -/
def parseRecords (lines : List (List Char)) : List (List Char × List Char) :=
  let st := lines.foldl parseStep ⟨[], none, []⟩
  match st.cur_header with
  | some h => st.recs ++ [(h, cleanSeq st.cur_seq)]
  | none => st.recs

/-- Folding `insertRecord` over a record list. -/
def dedupAcc (p : List (List Char × (List Char × List Char)) × List (List Char))
    (r : List Char × List Char) :
    List (List Char × (List Char × List Char)) × List (List Char) :=
  insertRecord p.1 p.2 r.1 r.2

/-- The dict and order that the deduplicator reaches on a record list. -/
def dedupSpecPair (recs : List (List Char × List Char)) :
    List (List Char × (List Char × List Char)) × List (List Char) :=
  recs.foldl dedupAcc ([], [])

/-- The record the deduplication policy retains from a nonempty group of
records sharing one key: start from the first and replace only on a strictly
longer cleaned sequence. -/
def keepLongestFrom (r : List Char × List Char) (rs : List (List Char × List Char)) :
    List Char × List Char :=
  rs.foldl (fun best q => if best.2.length < q.2.length then q else best) r

/-- First-seen order of the nonempty deduplication keys of a record list. -/
def firstSeenKeys (recs : List (List Char × List Char)) : List (List Char) :=
  recs.foldl (fun o r =>
    match extract_accession_id r.1 with
    | some k => if k = [] then o else if k ∈ o then o else o ++ [k]
    | none => o) []

/-- The invariant of the deduplicator's `(sequences, order)` pair: the dict
keys in insertion order are exactly `order`, `order` has no duplicates, and
every stored entry was stored under the (nonempty) accession id of its own
header. -/
def DInv (p : List (List Char × (List Char × List Char)) × List (List Char)) :
    Prop :=
  p.1.map (fun e => e.1) = p.2 ∧ p.2.Nodup ∧
  ∀ e ∈ p.1, extract_accession_id e.2.1 = some e.1 ∧ e.1 ≠ []

/-- Does a record carry deduplication key `k`? -/
def keyIs (k : List Char) (r : List Char × List Char) : Bool :=
  extract_accession_id r.1 == some k

/-- The records of a record list sharing deduplication key `k`, in order. -/
def keyRecs (k : List Char) (recs : List (List Char × List Char)) :
    List (List Char × List Char) :=
  recs.filter (keyIs k)

/-- The `(sequences, order)` pair reached from a record list, packaged as the
output written by the deduplicator: one `(header, sequence)` per key of
`order`. -/
def dedupOutput (recs : List (List Char × List Char)) :
    List (List Char × List Char) :=
  (dedupSpecPair recs).2.filterMap (fun k => List.lookup k (dedupSpecPair recs).1)

/-- Concrete demonstration file for the deduplication theorems. -/
def dedupDemoLines : List (List Char) :=
  [">A;x".toList, "AC-GT".toList, ">A;x".toList, "ACGTACGT".toList,
   ">B;y".toList, "GG".toList]

/-- The per-file record of `workflow_state.json` (the `errors` sub-map is
never read by the conversion-skip path modelled here and is omitted). -/
structure FileState where
  converted : Bool := false
  duplicates : Bool := false
  filtered : Bool := false
deriving DecidableEq

/-- The persisted workflow state: filename keys to per-file records. -/
abbrev WorkflowState := List (List Char × FileState)

/-- `load_state()`: the persisted mapping, or `{}` when the state file is
absent. -/
def load_state : Option WorkflowState → WorkflowState
  | some s => s
  | none => []

/-- The state-file part of `clear_previous_run`: `os.remove(state_file)` —
after it, no state file exists. -/
def clear_previous_run_state (_s : Option WorkflowState) :
    Option WorkflowState := none

/-- `state.get(base, {}).get("converted", False)`. -/
def stateConverted (state : WorkflowState) (base : List Char) : Bool :=
  match List.lookup base state with
  | some fs => fs.converted
  | none => false

/-- `os.path.splitext(name)[0]` for a bare filename: drop the extension
starting at the last dot, except that dots leading the name never start an
extension (`splitext('.txt') == ('.txt', '')`). -/
def splitextRoot (name : List Char) : List Char :=
  let lead := (name.takeWhile (fun c => c = '.')).length
  let rest := name.drop lead
  match rest.reverse.findIdx? (fun c => c = '.') with
  | none => name
  | some r => name.take (lead + (rest.length - 1 - r))

/-- `base = os.path.splitext(file)[0] + ".fasta"` in `convert_single_txt`. -/
def fileBase (file : List Char) : List Char :=
  splitextRoot file ++ ".fasta".toList

/-- Observable action of `convert_single_txt` on one file. -/
inductive ConvertOutcome where
  | ignored
  | skipped
  | wrote (content : List Char)
deriving DecidableEq

/-- `convert_single_txt`: return early unless the name ends in `.txt`; skip
when the loaded state already records the `converted` stage as successful;
otherwise write the file's content unchanged to the output name. -/
def convert_single_txt (state : WorkflowState) (file content : List Char) :
    ConvertOutcome :=
  if ¬ (".txt".toList.isSuffixOf file) then ConvertOutcome.ignored
  else if stateConverted state (fileBase file) then ConvertOutcome.skipped
  else ConvertOutcome.wrote content

/-- A re-run of the pipeline as `main()` performs it: `clear_previous_run`
removes the state file before any stage runs, then the convert stage loads
the (now empty) state. -/
def rerun_convert (persisted : Option WorkflowState)
    (file content : List Char) : ConvertOutcome :=
  convert_single_txt (load_state (clear_previous_run_state persisted))
    file content

/-- The two paths `preprocess_single_fasta` can touch: the processed file
itself and its `tmp_`-prefixed temporary (`none` = absent). -/
structure PreprocessFS where
  original : List (List Char)
  tmp : Option (List (List Char))
deriving DecidableEq

/-- The write loop of `preprocess_single_fasta`: each input line is written
to the temporary file as `preprocess_line` of it. -/
def writeTmpLines (lines : List (List Char)) : List (List Char) :=
  lines.foldl (fun acc l => acc ++ [preprocess_line l]) []

/-- `preprocess_single_fasta` with an injected exception point.
`failAfter = none`: the loop completes and `os.replace` moves the temporary
over the original. `failAfter = some n`: an exception is raised after `n`
lines were processed and written; the handler sees the partially written
temporary on disk and removes it, and the original is never written. -/
def preprocess_single_fasta_run (file : List (List Char))
    (failAfter : Option Nat) : PreprocessFS :=
  match failAfter with
  | none =>
    let fs := PreprocessFS.mk file (some (writeTmpLines file))
    { original := fs.tmp.getD fs.original, tmp := none }
  | some n =>
    let fs := PreprocessFS.mk file (some (writeTmpLines (file.take n)))
    { original := fs.original, tmp := none }

/-- A Unicode scalar value: any code point except the surrogate range. -/
def ScalarValue (c : Nat) : Prop :=
  c < 55296 ∨ (57344 ≤ c ∧ c < 1114112)

/-- Standard UTF-8 encoding of one scalar value. -/
def utf8EncodeChar (c : Nat) : List Nat :=
  if c < 128 then [c]
  else if c < 2048 then [192 + c / 64, 128 + c % 64]
  else if c < 65536 then
    [224 + c / 4096, 128 + c / 64 % 64, 128 + c % 64]
  else
    [240 + c / 262144, 128 + c / 4096 % 64, 128 + c / 64 % 64, 128 + c % 64]

/-- UTF-8 encoding of a string of scalar values (Python `str.encode`). -/
def utf8Encode (cs : List Nat) : List Nat :=
  (cs.map utf8EncodeChar).flatten

/-- Admissible second byte of a three-byte sequence headed by `b0`
(E0 excludes overlong encodings, ED excludes surrogates). -/
def utf8Cont3 (b0 b1 : Nat) : Bool :=
  if b0 = 224 then decide (160 ≤ b1 ∧ b1 ≤ 191)
  else if b0 = 237 then decide (128 ≤ b1 ∧ b1 ≤ 159)
  else decide (128 ≤ b1 ∧ b1 ≤ 191)

/-- Admissible second byte of a four-byte sequence headed by `b0`
(F0 excludes overlong encodings, F4 excludes code points above U+10FFFF). -/
def utf8Cont4 (b0 b1 : Nat) : Bool :=
  if b0 = 240 then decide (144 ≤ b1 ∧ b1 ≤ 191)
  else if b0 = 244 then decide (128 ≤ b1 ∧ b1 ≤ 143)
  else decide (128 ≤ b1 ∧ b1 ≤ 191)

/-- One pass of the WHATWG UTF-8 decoder with replacement, driven by a fuel
bounding the number of bytes still to consume. -/
def utf8DecodeAux : Nat → List Nat → List Nat
  | 0, _ => []
  | _, [] => []
  | fuel + 1, b0 :: rest =>
    if b0 < 128 then b0 :: utf8DecodeAux fuel rest
    else if 194 ≤ b0 ∧ b0 ≤ 223 then
      match rest with
      | [] => [65533]
      | b1 :: rest1 =>
        if 128 ≤ b1 ∧ b1 ≤ 191 then
          ((b0 - 192) * 64 + (b1 - 128)) :: utf8DecodeAux fuel rest1
        else 65533 :: utf8DecodeAux fuel rest
    else if 224 ≤ b0 ∧ b0 ≤ 239 then
      match rest with
      | [] => [65533]
      | b1 :: rest1 =>
        if utf8Cont3 b0 b1 then
          match rest1 with
          | [] => [65533]
          | b2 :: rest2 =>
            if 128 ≤ b2 ∧ b2 ≤ 191 then
              ((b0 - 224) * 4096 + (b1 - 128) * 64 + (b2 - 128))
                :: utf8DecodeAux fuel rest2
            else 65533 :: utf8DecodeAux fuel rest1
        else 65533 :: utf8DecodeAux fuel rest
    else if 240 ≤ b0 ∧ b0 ≤ 244 then
      match rest with
      | [] => [65533]
      | b1 :: rest1 =>
        if utf8Cont4 b0 b1 then
          match rest1 with
          | [] => [65533]
          | b2 :: rest2 =>
            if 128 ≤ b2 ∧ b2 ≤ 191 then
              match rest2 with
              | [] => [65533]
              | b3 :: rest3 =>
                if 128 ≤ b3 ∧ b3 ≤ 191 then
                  ((b0 - 240) * 262144 + (b1 - 128) * 4096 + (b2 - 128) * 64
                      + (b3 - 128)) :: utf8DecodeAux fuel rest3
                else 65533 :: utf8DecodeAux fuel rest2
            else 65533 :: utf8DecodeAux fuel rest1
        else 65533 :: utf8DecodeAux fuel rest
    else 65533 :: utf8DecodeAux fuel rest

/-- Python `bytes.decode('utf-8', errors='replace')`. -/
def utf8DecodeReplace (bs : List Nat) : List Nat :=
  utf8DecodeAux bs.length bs

/-- Universal-newline translation performed by Python's text-mode read
(`open(..., 'r')` with the default `newline=None`): every `"\r\n"` pair and
every lone `"\r"` in the decoded text becomes `"\n"`. -/
def universalNewlines : List Nat → List Nat
  | [] => []
  | 13 :: 10 :: rest => 10 :: universalNewlines rest
  | 13 :: rest => 10 :: universalNewlines rest
  | c :: rest => c :: universalNewlines rest

/-- The byte-level content transformation of `convert_single_txt`: the file
is opened in text mode, so the read decodes the bytes as UTF-8 with
replacement and applies universal-newline translation, and the write encodes
the string back as UTF-8, translating `"\n"` to `os.linesep` — which on the
POSIX platforms the pipeline runs on is `"\n"` again, an identity. -/
def convert_file_bytes (bs : List Nat) : List Nat :=
  utf8Encode (universalNewlines (utf8DecodeReplace bs))

instance (c : Nat) : Decidable (ScalarValue c) := by
  unfold ScalarValue
  exact inferInstance

/-! ## Theorems -/

theorem splitSemi_ne_nil (s : List Char) : splitSemi s ≠ [] := by
  induction s with
  | nil => simp [splitSemi]
  | cons c rest ih =>
    simp only [splitSemi]
    split
    · simp
    · cases h : splitSemi rest with
      | nil => simp
      | cons g gs => simp

theorem splitSemi_headD (s : List Char) :
    (splitSemi s).headD [] = s.takeWhile (fun c => ¬ c = ';') := by
  induction s with
  | nil => simp [splitSemi]
  | cons c rest ih =>
    by_cases hc : c = ';'
    · subst hc
      simp [splitSemi, List.takeWhile]
    · simp only [splitSemi, if_neg hc]
      cases h : splitSemi rest with
      | nil => exact absurd h (splitSemi_ne_nil rest)
      | cons g gs =>
        rw [h] at ih
        simp only [List.headD] at ih ⊢
        simp [List.takeWhile, hc, ih]

theorem mem_splitSemi_no_semi (s : List Char) :
    ∀ g ∈ splitSemi s, ';' ∉ g := by
  induction s with
  | nil => simp [splitSemi]
  | cons c rest ih =>
    by_cases hc : c = ';'
    · subst hc
      simp only [splitSemi, if_pos rfl]
      intro g hg
      rcases List.mem_cons.mp hg with h1 | h1
      · simp [h1]
      · exact ih g h1
    · simp only [splitSemi, if_neg hc]
      cases h : splitSemi rest with
      | nil => exact absurd h (splitSemi_ne_nil rest)
      | cons g0 gs =>
        intro g hg
        rcases List.mem_cons.mp hg with h1 | h1
        · subst h1
          intro hmem
          rcases List.mem_cons.mp hmem with h2 | h2
          · exact hc h2.symm
          · exact ih g0 (h ▸ List.mem_cons_self g0 gs) h2
        · exact ih g (h ▸ List.mem_cons_of_mem g0 h1)

theorem splitSemi_no_semi (g : List Char) (hg : ';' ∉ g) : splitSemi g = [g] := by
  induction g with
  | nil => simp [splitSemi]
  | cons c rest ih =>
    have hc : ¬ c = ';' := fun h => hg (h ▸ List.mem_cons_self c rest)
    have hrest : ';' ∉ rest := fun h => hg (List.mem_cons_of_mem c h)
    simp [splitSemi, hc, ih hrest]

theorem splitSemi_semi_append (g t : List Char) (hg : ';' ∉ g) :
    splitSemi (g ++ ';' :: t) = g :: splitSemi t := by
  induction g with
  | nil => simp [splitSemi]
  | cons c rest ih =>
    have hc : ¬ c = ';' := fun h => hg (h ▸ List.mem_cons_self c rest)
    have hrest : ';' ∉ rest := fun h => hg (List.mem_cons_of_mem c h)
    show (if c = ';' then [] :: splitSemi (rest ++ ';' :: t)
          else match splitSemi (rest ++ ';' :: t) with
               | [] => [[c]]
               | g :: gs => (c :: g) :: gs) = (c :: rest) :: splitSemi t
    rw [if_neg hc, ih hrest]

theorem joinSemi_cons_cons (g : List Char) (g' : List Char) (gs : List (List Char)) :
    joinSemi (g :: g' :: gs) = g ++ ';' :: joinSemi (g' :: gs) := rfl

theorem splitSemi_joinSemi (gs : List (List Char)) (hne : gs ≠ [])
    (hg : ∀ g ∈ gs, ';' ∉ g) : splitSemi (joinSemi gs) = gs := by
  induction gs with
  | nil => exact absurd rfl hne
  | cons g rest ih =>
    cases rest with
    | nil =>
      simpa [joinSemi] using splitSemi_no_semi g (hg g (List.mem_cons_self g []))
    | cons g' gs' =>
      rw [joinSemi_cons_cons, splitSemi_semi_append g _ (hg g (List.mem_cons_self g _))]
      rw [ih (by simp) (fun x hx => hg x (List.mem_cons_of_mem g hx))]

theorem joinSemi_concat (gs : List (List Char)) (g : List Char) (hne : gs ≠ []) :
    joinSemi (gs ++ [g]) = joinSemi gs ++ ';' :: g := by
  induction gs with
  | nil => exact absurd rfl hne
  | cons x rest ih =>
    cases rest with
    | nil => simp [joinSemi]
    | cons y ys =>
      calc joinSemi (x :: y :: ys ++ [g])
          = x ++ ';' :: joinSemi ((y :: ys) ++ [g]) := rfl
        _ = x ++ ';' :: (joinSemi (y :: ys) ++ ';' :: g) := by rw [ih (by simp)]
        _ = joinSemi (x :: y :: ys) ++ ';' :: g := by
            rw [joinSemi_cons_cons x y ys]; simp

theorem stripEndP_head? (p : Char → Bool) (l : List Char) (c : Char)
    (h : (stripEndP p l).head? = some c) : l.head? = some c := by
  cases l with
  | nil => simp [stripEndP] at h
  | cons a rest =>
    simp only [stripEndP] at h
    rcases hrec : stripEndP p rest with _ | ⟨b, bs⟩ <;> rw [hrec] at h
    · split at h <;> by_cases hp : p a <;> simp [hp] at h <;> simp [h]
    · simp at h
      simp [h]

theorem dropWhile_head?_false (p : Char → Bool) (l : List Char) (c : Char)
    (h : (l.dropWhile p).head? = some c) : p c = false := by
  induction l with
  | nil => simp [List.dropWhile] at h
  | cons a rest ih =>
    rw [List.dropWhile_cons] at h
    by_cases hp : p a
    · rw [if_pos hp] at h
      exact ih h
    · rw [if_neg hp] at h
      simp at h
      rw [← h]
      exact Bool.eq_false_iff.mpr hp

theorem pyStripP_head?_false (p : Char → Bool) (s : List Char) (c : Char)
    (h : (pyStripP p s).head? = some c) : p c = false :=
  dropWhile_head?_false p s c (stripEndP_head? p _ c h)

theorem dropWhile_eq_self_of_head (p : Char → Bool) (l : List Char)
    (h : ∀ c, l.head? = some c → p c = false) : l.dropWhile p = l := by
  cases l with
  | nil => rfl
  | cons a rest => simp [List.dropWhile, h a rfl]

theorem stripEndP_eq_self_of_getLast (p : Char → Bool) (l : List Char)
    (h : ∀ c, l.getLast? = some c → p c = false) : stripEndP p l = l := by
  induction l with
  | nil => rfl
  | cons a rest ih =>
    cases rest with
    | nil =>
      have := h a (by simp)
      simp [stripEndP, this]
    | cons b bs =>
      have hrest : stripEndP p (b :: bs) = b :: bs := by
        apply ih
        intro c hc
        apply h
        rwa [List.getLast?_cons_cons]
      show (match stripEndP p (b :: bs) with
            | [] => if p a then [] else [a]
            | r => a :: r) = a :: b :: bs
      rw [hrest]

theorem pyStripP_eq_self (p : Char → Bool) (l : List Char)
    (h1 : ∀ c, l.head? = some c → p c = false)
    (h2 : ∀ c, l.getLast? = some c → p c = false) : pyStripP p l = l := by
  unfold pyStripP
  rw [dropWhile_eq_self_of_head p l h1]
  exact stripEndP_eq_self_of_getLast p l h2

theorem getLast?_concat_char (l : List Char) (c : Char) :
    (l ++ [c]).getLast? = some c := List.getLast?_concat l

theorem takeWhile_head? (p : Char → Bool) (s : List Char) (a : Char)
    (y : List Char) (h : s.takeWhile p = a :: y) : s.head? = some a := by
  cases s with
  | nil => simp [List.takeWhile] at h
  | cons c rest =>
    simp only [List.takeWhile] at h
    split at h
    · simp at h
      simp [h.1]
    · simp at h

/-- C4: `filter_nucleotide_sequence` is exactly uppercase-then-filter; every
output character lies in the alphabet `VALID_NUCLEOTIDES`, no `'-'` remains,
and the function is a homomorphism for concatenation (so its action on any
character is independent of position and surrounding context). -/
theorem filter_nucleotide_pure_alphabet (s : List Char) :
    filter_nucleotide_sequence s
        = (s.map Char.toUpper).filter (fun c => c ∈ VALID_NUCLEOTIDES) ∧
    (∀ c ∈ filter_nucleotide_sequence s, c ∈ VALID_NUCLEOTIDES) ∧
    ('-' ∉ filter_nucleotide_sequence s) ∧
    (∀ t, filter_nucleotide_sequence (s ++ t)
        = filter_nucleotide_sequence s ++ filter_nucleotide_sequence t) := by
  refine ⟨rfl, ?_, ?_, ?_⟩
  · intro c hc
    simpa using (List.mem_filter.mp hc).2
  · intro hc
    have h2 : '-' ∈ VALID_NUCLEOTIDES := by simpa using (List.mem_filter.mp hc).2
    simp [VALID_NUCLEOTIDES] at h2
  · intro t
    simp [filter_nucleotide_sequence, List.filter_append]

/-- C10: applying `filter_nucleotide_sequence` twice gives the same result as
applying it once. -/
theorem filter_nucleotide_idempotent (s : List Char) :
    filter_nucleotide_sequence (filter_nucleotide_sequence s)
      = filter_nucleotide_sequence s := by
  have hvalid : ∀ c ∈ filter_nucleotide_sequence s, c ∈ VALID_NUCLEOTIDES := by
    intro c hc
    simpa using (List.mem_filter.mp hc).2
  have hupper : ∀ c ∈ VALID_NUCLEOTIDES, Char.toUpper c = c := by decide
  have hmap : List.map Char.toUpper (filter_nucleotide_sequence s)
      = List.map id (filter_nucleotide_sequence s) :=
    List.map_congr_left (fun c hc => hupper c (hvalid c hc))
  rw [List.map_id] at hmap
  show ((filter_nucleotide_sequence s).map Char.toUpper).filter
      (fun c => c ∈ VALID_NUCLEOTIDES) = filter_nucleotide_sequence s
  rw [hmap]
  exact List.filter_eq_self.mpr (fun c hc => by simpa using hvalid c hc)

/-- C7 counterexample: the raw sequence line `" ACGT"` (leading space) is a
non-header line, yet `preprocess_single_fasta` writes it back changed — the
loop strips every line before the header test, so surrounding whitespace is
removed from sequence lines too. -/
theorem preprocess_strips_nonheader :
    preprocess_line (' ' :: ['A', 'C', 'G', 'T']) ≠ ' ' :: ['A', 'C', 'G', 'T'] := by
  decide

/-- C7 amended: a non-header line is written back as its whitespace-stripped
form; hence any non-header line without surrounding whitespace (one that the
strip leaves alone and that still does not start with `'>'` or `'">'`) passes
through unchanged. -/
theorem preprocess_nonheader_unchanged (line : List Char)
    (hs : pyStrip line = line)
    (h1 : ¬ line.head? = some '>')
    (h2 : ¬ line.take 2 = ['"', '>']) :
    preprocess_line line = line := by
  simp [preprocess_line, hs, h1, h2]

/-- Witness for `preprocess_nonheader_unchanged` at the concrete line
`"ACGT"`. -/
theorem preprocess_nonheader_unchanged_witness :
    preprocess_line ['A', 'C', 'G', 'T'] = ['A', 'C', 'G', 'T'] :=
  preprocess_nonheader_unchanged ['A', 'C', 'G', 'T'] (by decide) (by decide)
    (by decide)

/-- On a non-header line `standardize_line` is the identity. -/
theorem standardize_line_nonheader (l : List Char) (ef : Nat)
    (h : ¬ l.head? = some '>') : standardize_line l ef = l := by
  simp [standardize_line, h]

/-- The first character of the rebuilt header body
`joinSemi (take ef (splitSemi (pyStrip s))) ++ [';']` is either `';'` or the
first character of `pyStrip s`; in both cases it is not whitespace. -/
theorem rebuilt_header_head_not_ws (s : List Char) (ef : Nat) (c : Char)
    (h : (joinSemi ((splitSemi (pyStrip s)).take ef) ++ [';']).head? = some c) :
    c.isWhitespace = false := by
  cases hfs : (splitSemi (pyStrip s)).take ef with
  | nil =>
    rw [hfs] at h
    simp [joinSemi] at h
    subst h
    decide
  | cons g0 gs =>
    rw [hfs] at h
    cases g0 with
    | nil =>
      cases gs with
      | nil =>
        simp [joinSemi] at h
        subst h
        decide
      | cons g1 gs' =>
        rw [joinSemi_cons_cons] at h
        simp at h
        subst h
        decide
    | cons a g0' =>
      have hca : a = c := by
        cases gs with
        | nil => simpa [joinSemi] using h
        | cons g1 gs' =>
          rw [joinSemi_cons_cons] at h
          simpa using h
      rw [← hca]
      have hhead : (splitSemi (pyStrip s)).headD [] = a :: g0' := by
        cases hsp : splitSemi (pyStrip s) with
        | nil => exact absurd hsp (splitSemi_ne_nil _)
        | cons f fs' =>
          rw [hsp] at hfs
          cases ef with
          | zero => simp at hfs
          | succ m =>
            simp only [List.take_succ_cons] at hfs
            have : f = a :: g0' := (List.cons.injEq _ _ _ _).mp hfs |>.1
            simp [this]
      rw [splitSemi_headD] at hhead
      have hs : (pyStrip s).head? = some a := takeWhile_head? _ _ a g0' hhead
      exact pyStripP_head?_false Char.isWhitespace s a hs

/-- Idempotence of `standardize_line` on a line that is either a non-header
line or a header with at least `ef` semicolon-delimited fields. -/
theorem standardize_line_idem (l : List Char) (ef : Nat)
    (h : l.head? = some '>' → ef ≤ (splitSemi (pyStrip (l.drop 1))).length) :
    standardize_line (standardize_line l ef) ef = standardize_line l ef := by
  by_cases hl : l.head? = some '>'
  · have hstd : standardize_line l ef
        = '>' :: (joinSemi ((splitSemi (pyStrip (l.drop 1))).take ef) ++ [';']) := by
      simp [standardize_line, hl]
    set h' : List Char := pyStrip (l.drop 1) with hh'
    set f8 : List (List Char) := (splitSemi h').take ef with hf8
    set t : List Char := joinSemi f8 ++ [';'] with ht0
    have hstd2 : standardize_line (standardize_line l ef) ef
        = '>' :: (joinSemi ((splitSemi (pyStrip t)).take ef) ++ [';']) := by
      rw [hstd]
      simp [standardize_line]
    rw [hstd2, hstd]
    have hstrip : pyStrip t = t := by
      apply pyStripP_eq_self
      · intro c hc
        exact rebuilt_header_head_not_ws (l.drop 1) ef c hc
      · intro c hc
        rw [ht0, getLast?_concat_char] at hc
        cases hc
        decide
    rw [hstrip]
    cases ef with
    | zero =>
      have hf80 : f8 = [] := by simp [hf8]
      rw [ht0, hf80]
      decide
    | succ m =>
      have hlen : f8.length = m + 1 := by
        rw [hf8, List.length_take]
        have := h hl
        omega
      have hne : f8 ≠ [] := by
        intro h0
        rw [h0] at hlen
        simp at hlen
      have hfree : ∀ g ∈ f8 ++ [[]], ';' ∉ g := by
        intro g hg
        rcases List.mem_append.mp hg with hg | hg
        · exact mem_splitSemi_no_semi h' g (List.take_subset _ _ (hf8 ▸ hg))
        · simp at hg
          simp [hg]
      have ht : t = joinSemi (f8 ++ [[]]) := by
        rw [joinSemi_concat f8 [] hne]
      conv_lhs => rw [ht, splitSemi_joinSemi (f8 ++ [[]]) (by simp) hfree,
        List.take_left' hlen]
  · rw [standardize_line_nonheader l ef hl, standardize_line_nonheader l ef hl]

/-- C3 counterexample: a header with fewer than `expected_fields` fields is
not a fixed point of the standardizer — re-application appends another
trailing `';'` (`>A;B` becomes `>A;B;`, then `>A;B;;`). -/
theorem standardize_not_idempotent :
    standardize_dereplicated_headers_file
        (standardize_dereplicated_headers_file [['>', 'A', ';', 'B']])
      ≠ standardize_dereplicated_headers_file [['>', 'A', ';', 'B']] := by
  decide

/-- C3 amended: the final header-standardization pass is idempotent on every
file in which each header line has at least `expected_fields`
semicolon-delimited fields (after the marker is stripped); on a header with
fewer fields a second application appends one more trailing `';'`. -/
theorem standardize_idempotent_of_full_headers (lines : List (List Char))
    (ef : Nat)
    (h : ∀ l ∈ lines, l.head? = some '>' →
        ef ≤ (splitSemi (pyStrip (l.drop 1))).length) :
    standardize_dereplicated_headers_file
        (standardize_dereplicated_headers_file lines ef) ef
      = standardize_dereplicated_headers_file lines ef := by
  unfold standardize_dereplicated_headers_file
  rw [List.map_map]
  exact List.map_congr_left (fun l hl => standardize_line_idem l ef (h l hl))

/-- Witness for `standardize_idempotent_of_full_headers`: a 9-field header
(the pipeline's own output shape) plus a sequence line. -/
theorem standardize_idempotent_witness :
    standardize_dereplicated_headers_file
        (standardize_dereplicated_headers_file
          [">A;B;C;D;E;F;G;H;I".toList, "ACGT".toList] 8) 8
      = standardize_dereplicated_headers_file
          [">A;B;C;D;E;F;G;H;I".toList, "ACGT".toList] 8 :=
  standardize_idempotent_of_full_headers
    [">A;B;C;D;E;F;G;H;I".toList, "ACGT".toList] 8 (by decide)

theorem replaceKey_map_fst (k : List Char) (v : List Char × List Char)
    (m : List (List Char × (List Char × List Char))) :
    (replaceKey k v m).map (fun e => e.1) = m.map (fun e => e.1) := by
  induction m with
  | nil => rfl
  | cons e rest ih =>
    by_cases h : e.1 = k
    · cases e
      simp_all [replaceKey]
    · cases e
      simp_all [replaceKey]

theorem mem_replaceKey (k : List Char) (v : List Char × List Char)
    (m : List (List Char × (List Char × List Char)))
    (e : List Char × (List Char × List Char)) (he : e ∈ replaceKey k v m) :
    e = (k, v) ∨ e ∈ m := by
  induction m with
  | nil => simp [replaceKey] at he
  | cons e0 rest ih =>
    cases e0 with
    | mk k0 v0 =>
      by_cases h : k0 = k
      · subst h
        rw [show replaceKey k0 v ((k0, v0) :: rest) = (k0, v) :: rest by
          simp [replaceKey]] at he
        rcases List.mem_cons.mp he with h1 | h1
        · exact Or.inl h1
        · exact Or.inr (List.mem_cons_of_mem _ h1)
      · rw [show replaceKey k v ((k0, v0) :: rest) = (k0, v0) :: replaceKey k v rest by
          simp [replaceKey, h]] at he
        rcases List.mem_cons.mp he with h1 | h1
        · exact Or.inr (h1 ▸ List.mem_cons_self _ _)
        · rcases ih h1 with h2 | h2
          · exact Or.inl h2
          · exact Or.inr (List.mem_cons_of_mem _ h2)

theorem lookup_none_iff (k : List Char)
    (m : List (List Char × (List Char × List Char))) :
    List.lookup k m = none ↔ k ∉ m.map (fun e => e.1) := by
  induction m with
  | nil => simp [List.lookup]
  | cons e rest ih =>
    cases e with
    | mk k' v' =>
      by_cases h : k = k'
      · simp [List.lookup, h]
      · have hb : (k == k') = false := beq_false_of_ne h
        simp [List.lookup, hb, ih, h]

theorem lookup_isSome_of_mem_fst (k : List Char)
    (m : List (List Char × (List Char × List Char)))
    (h : k ∈ m.map (fun e => e.1)) : ∃ v, List.lookup k m = some v := by
  cases hl : List.lookup k m with
  | none => exact absurd h ((lookup_none_iff k m).mp hl)
  | some v => exact ⟨v, rfl⟩

theorem lookup_mem (k : List Char) (v : List Char × List Char)
    (m : List (List Char × (List Char × List Char)))
    (h : List.lookup k m = some v) : (k, v) ∈ m := by
  induction m with
  | nil => simp [List.lookup] at h
  | cons e rest ih =>
    cases e with
    | mk k' v' =>
      by_cases hk : k = k'
      · subst hk
        simp [List.lookup] at h
        simp [h]
      · rw [show List.lookup k ((k', v') :: rest) = List.lookup k rest by
          simp [List.lookup, beq_false_of_ne hk]] at h
        exact List.mem_cons_of_mem _ (ih h)

theorem lookup_replaceKey_self (k : List Char) (v v0 : List Char × List Char)
    (m : List (List Char × (List Char × List Char)))
    (h : List.lookup k m = some v0) :
    List.lookup k (replaceKey k v m) = some v := by
  induction m with
  | nil => simp [List.lookup] at h
  | cons e rest ih =>
    cases e with
    | mk k' v' =>
      by_cases hk : k' = k
      · subst hk
        simp [replaceKey, List.lookup]
      · simp only [replaceKey, if_neg hk]
        rw [show List.lookup k ((k', v') :: rest) = List.lookup k rest by
          simp [List.lookup, beq_false_of_ne (Ne.symm hk)]] at h
        rw [show List.lookup k ((k', v') :: replaceKey k v rest)
            = List.lookup k (replaceKey k v rest) by
          simp [List.lookup, beq_false_of_ne (Ne.symm hk)]]
        exact ih h

theorem lookup_replaceKey_ne (a k : List Char) (v : List Char × List Char)
    (m : List (List Char × (List Char × List Char))) (hne : a ≠ k) :
    List.lookup k (replaceKey a v m) = List.lookup k m := by
  induction m with
  | nil => rfl
  | cons e rest ih =>
    cases e with
    | mk k' v' =>
      by_cases hk : k' = a
      · subst hk
        simp only [replaceKey, if_pos rfl]
        simp [List.lookup, beq_false_of_ne (Ne.symm hne)]
      · simp only [replaceKey, if_neg hk]
        by_cases hkk : k = k'
        · subst hkk
          simp [List.lookup]
        · simp [List.lookup, beq_false_of_ne hkk, ih]

theorem lookup_append_of_ne (a k : List Char) (v : List Char × List Char)
    (m : List (List Char × (List Char × List Char))) (hne : a ≠ k) :
    List.lookup k (m ++ [(a, v)]) = List.lookup k m := by
  induction m with
  | nil => simp [List.lookup, beq_false_of_ne (Ne.symm hne)]
  | cons e rest ih =>
    cases e with
    | mk k' v' =>
      by_cases hkk : k = k'
      · subst hkk
        simp [List.lookup]
      · simp [List.lookup, beq_false_of_ne hkk, ih]

theorem lookup_append_self (k : List Char) (v : List Char × List Char)
    (m : List (List Char × (List Char × List Char)))
    (h : List.lookup k m = none) :
    List.lookup k (m ++ [(k, v)]) = some v := by
  induction m with
  | nil => simp [List.lookup]
  | cons e rest ih =>
    cases e with
    | mk k' v' =>
      by_cases hkk : k = k'
      · subst hkk
        simp [List.lookup] at h
      · rw [show List.lookup k ((k', v') :: rest) = List.lookup k rest by
          simp [List.lookup, beq_false_of_ne hkk]] at h
        rw [List.cons_append,
          show List.lookup k ((k', v') :: (rest ++ [(k, v)]))
            = List.lookup k (rest ++ [(k, v)]) by
          simp [List.lookup, beq_false_of_ne hkk]]
        exact ih h

theorem dedupAcc_inv (p : List (List Char × (List Char × List Char)) × List (List Char))
    (r : List Char × List Char) (h : DInv p) : DInv (dedupAcc p r) := by
  obtain ⟨hkeys, hnodup, hent⟩ := h
  unfold dedupAcc insertRecord
  cases hext : extract_accession_id r.1 with
  | none => exact ⟨hkeys, hnodup, hent⟩
  | some acc =>
    by_cases hacc : acc = []
    · simp only [if_pos hacc]
      exact ⟨hkeys, hnodup, hent⟩
    · simp only [if_neg hacc]
      cases hl : List.lookup acc p.1 with
      | some hs =>
        by_cases hlen : hs.2.length < r.2.length
        · simp only [if_pos hlen]
          refine ⟨?_, ?_, ?_⟩
          · rw [replaceKey_map_fst, hkeys]
          · exact hnodup
          · intro e he
            rcases mem_replaceKey acc (r.1, r.2) p.1 e he with h1 | h1
            · rw [h1]
              exact ⟨hext, hacc⟩
            · exact hent e h1
        · simp only [if_neg hlen]
          exact ⟨hkeys, hnodup, hent⟩
      | none =>
        refine ⟨?_, ?_, ?_⟩
        · simp [hkeys]
        · have hout : acc ∉ p.2 := hkeys ▸ (lookup_none_iff acc p.1).mp hl
          simp [List.nodup_append, hnodup, hout]
        · intro e he
          rcases List.mem_append.mp he with h1 | h1
          · exact hent e h1
          · simp at h1
            rw [h1]
            exact ⟨hext, hacc⟩

theorem foldIns_inv (recs : List (List Char × List Char))
    (p : List (List Char × (List Char × List Char)) × List (List Char))
    (h : DInv p) : DInv (recs.foldl dedupAcc p) := by
  induction recs generalizing p with
  | nil => exact h
  | cons r rest ih => exact ih (dedupAcc p r) (dedupAcc_inv p r h)

theorem dedupSpecPair_inv (recs : List (List Char × List Char)) :
    DInv (dedupSpecPair recs) :=
  foldIns_inv recs ([], []) ⟨rfl, List.nodup_nil, by simp⟩

theorem dedupSpecPair_concat (recs : List (List Char × List Char))
    (r : List Char × List Char) :
    dedupSpecPair (recs ++ [r]) = dedupAcc (dedupSpecPair recs) r := by
  unfold dedupSpecPair
  rw [List.foldl_append]
  rfl

theorem keepLongestFrom_concat (q : List Char × List Char)
    (qs : List (List Char × List Char)) (r : List Char × List Char) :
    keepLongestFrom q (qs ++ [r])
      = if (keepLongestFrom q qs).2.length < r.2.length then r
        else keepLongestFrom q qs := by
  unfold keepLongestFrom
  rw [List.foldl_append]
  rfl

theorem keyRecs_concat (k : List Char) (recs : List (List Char × List Char))
    (r : List Char × List Char) :
    keyRecs k (recs ++ [r])
      = keyRecs k recs ++ if keyIs k r then [r] else [] := by
  unfold keyRecs
  rw [List.filter_append]
  congr 1
  rw [show List.filter (keyIs k) [r]
      = (match keyIs k r with | true => [r] | false => []) from rfl]
  cases keyIs k r <;> simp

theorem keyIs_true_iff (k : List Char) (r : List Char × List Char) :
    keyIs k r = true ↔ extract_accession_id r.1 = some k := by
  simp [keyIs]

theorem lookup_dedupSpecPair (k : List Char) (hk : k ≠ [])
    (recs : List (List Char × List Char)) :
    List.lookup k (dedupSpecPair recs).1
      = match keyRecs k recs with
        | [] => none
        | r :: rs => some (keepLongestFrom r rs) := by
  induction recs using List.reverseRecOn with
  | nil => rfl
  | append_singleton recs r ih =>
    rw [dedupSpecPair_concat, keyRecs_concat]
    cases hext : extract_accession_id r.1 with
    | none =>
      have hkey : keyIs k r = false := by simp [keyIs, hext]
      rw [if_neg (by simp [hkey]), List.append_nil]
      simp only [dedupAcc, insertRecord, hext]
      exact ih
    | some acc =>
      by_cases hacc : acc = []
      · have hkey : keyIs k r = false := by
          simp only [keyIs, hext]
          exact beq_false_of_ne (fun h => hk ((Option.some.inj h).symm ▸ hacc))
        rw [if_neg (by simp [hkey]), List.append_nil]
        simp only [dedupAcc, insertRecord, hext, if_pos hacc]
        exact ih
      · by_cases hak : acc = k
        · subst hak
          have hkey : keyIs acc r = true := by simp [keyIs, hext]
          rw [if_pos hkey]
          simp only [dedupAcc, insertRecord, hext, if_neg hacc]
          cases hl : List.lookup acc (dedupSpecPair recs).1 with
          | none =>
            have hnil : keyRecs acc recs = [] := by
              rcases hfil : keyRecs acc recs with _ | ⟨q, qs⟩
              · rfl
              · rw [hfil] at ih
                rw [hl] at ih
                simp at ih
            rw [hnil, List.nil_append]
            rw [lookup_append_self acc (r.1, r.2) _ hl]
            rfl
          | some hs =>
            rcases hfil : keyRecs acc recs with _ | ⟨q, qs⟩
            · rw [hfil, hl] at ih
              simp at ih
            · rw [hfil, hl] at ih
              have hs_eq : hs = keepLongestFrom q qs := by
                simpa using ih
              rw [List.cons_append]
              dsimp only
              by_cases hlen : hs.2.length < r.2.length
              · rw [if_pos hlen]
                rw [lookup_replaceKey_self acc (r.1, r.2) hs _ hl]
                rw [keepLongestFrom_concat, ← hs_eq, if_pos hlen]
              · rw [if_neg hlen, hl]
                rw [keepLongestFrom_concat, ← hs_eq, if_neg hlen, hs_eq]
        · have hkey : keyIs k r = false := by
            simp only [keyIs, hext]
            exact beq_false_of_ne (fun h => hak (Option.some.inj h))
          rw [if_neg (by simp [hkey]), List.append_nil]
          simp only [dedupAcc, insertRecord, hext, if_neg hacc]
          cases hl : List.lookup acc (dedupSpecPair recs).1 with
          | none =>
            rw [lookup_append_of_ne acc k (r.1, r.2) _ hak]
            exact ih
          | some hs =>
            dsimp only
            by_cases hlen : hs.2.length < r.2.length
            · rw [if_pos hlen]
              rw [lookup_replaceKey_ne acc k (r.1, r.2) _ hak]
              exact ih
            · rw [if_neg hlen]
              exact ih

theorem dedupAcc_keys (p : List (List Char × (List Char × List Char)) × List (List Char))
    (r : List Char × List Char) (hkeys : p.1.map (fun e => e.1) = p.2) :
    (dedupAcc p r).1.map (fun e => e.1) = (dedupAcc p r).2 := by
  unfold dedupAcc insertRecord
  cases hext : extract_accession_id r.1 with
  | none => exact hkeys
  | some acc =>
    by_cases hacc : acc = []
    · simp only [if_pos hacc]
      exact hkeys
    · simp only [if_neg hacc]
      cases hl : List.lookup acc p.1 with
      | some hs =>
        by_cases hlen : hs.2.length < r.2.length
        · simp only [if_pos hlen]
          rw [replaceKey_map_fst]
          exact hkeys
        · simp only [if_neg hlen]
          exact hkeys
      | none => simp [hkeys]

theorem dedupAcc_order (p : List (List Char × (List Char × List Char)) × List (List Char))
    (r : List Char × List Char) (hkeys : p.1.map (fun e => e.1) = p.2) :
    (dedupAcc p r).2
      = match extract_accession_id r.1 with
        | some k => if k = [] then p.2 else if k ∈ p.2 then p.2 else p.2 ++ [k]
        | none => p.2 := by
  unfold dedupAcc insertRecord
  cases hext : extract_accession_id r.1 with
  | none => rfl
  | some acc =>
    by_cases hacc : acc = []
    · simp [hacc]
    · simp only [if_neg hacc]
      cases hl : List.lookup acc p.1 with
      | some hs =>
        have hmem : acc ∈ p.2 := by
          rw [← hkeys]
          exact List.mem_map_of_mem (fun e => e.1) (lookup_mem acc hs p.1 hl)
        by_cases hlen : hs.2.length < r.2.length <;> simp [hmem, hlen]
      | none =>
        have hmem : acc ∉ p.2 := hkeys ▸ (lookup_none_iff acc p.1).mp hl
        simp [hmem]

theorem foldIns_order (recs : List (List Char × List Char))
    (p : List (List Char × (List Char × List Char)) × List (List Char))
    (hkeys : p.1.map (fun e => e.1) = p.2) :
    (recs.foldl dedupAcc p).2
      = recs.foldl (fun o r =>
          match extract_accession_id r.1 with
          | some k => if k = [] then o else if k ∈ o then o else o ++ [k]
          | none => o) p.2 := by
  induction recs generalizing p with
  | nil => rfl
  | cons r rest ih =>
    rw [List.foldl_cons, List.foldl_cons, ← dedupAcc_order p r hkeys]
    exact ih (dedupAcc p r) (dedupAcc_keys p r hkeys)

theorem firstSeenKeys_eq_order (recs : List (List Char × List Char)) :
    (dedupSpecPair recs).2 = firstSeenKeys recs :=
  foldIns_order recs ([], []) rfl

theorem dedupStep_refines (d : DState) (q : PState)
    (h1 : d.seqs = (dedupSpecPair q.recs).1)
    (h2 : d.order = (dedupSpecPair q.recs).2)
    (h3 : d.cur_header = q.cur_header)
    (h4 : d.cur_seq = q.cur_seq) (raw : List Char) :
    (dedupStep d raw).seqs = (dedupSpecPair (parseStep q raw).recs).1 ∧
    (dedupStep d raw).order = (dedupSpecPair (parseStep q raw).recs).2 ∧
    (dedupStep d raw).cur_header = (parseStep q raw).cur_header ∧
    (dedupStep d raw).cur_seq = (parseStep q raw).cur_seq := by
  by_cases hemp : pyStrip raw = []
  · simp only [dedupStep, parseStep, hemp, if_pos rfl]
    exact ⟨h1, h2, h3, h4⟩
  · by_cases hhd : (pyStrip raw).head? = some '>'
    · cases hch : q.cur_header with
      | some h =>
        have hd3 : d.cur_header = some h := h3.trans hch
        simp only [dedupStep, parseStep, if_neg hemp, if_pos hhd, hch, hd3]
        rw [dedupSpecPair_concat]
        refine ⟨?_, ?_, trivial, trivial⟩
        · rw [h1, h2, h4]
          rfl
        · rw [h1, h2, h4]
          rfl
      | none =>
        have hd3 : d.cur_header = none := h3.trans hch
        simp only [dedupStep, parseStep, if_neg hemp, if_pos hhd, hch, hd3]
        exact ⟨h1, h2, trivial, trivial⟩
    · simp only [dedupStep, parseStep, if_neg hemp, if_neg hhd]
      exact ⟨h1, h2, h3, by rw [h4]⟩

theorem dedup_foldl_refines (lines : List (List Char)) (d : DState) (q : PState)
    (h1 : d.seqs = (dedupSpecPair q.recs).1)
    (h2 : d.order = (dedupSpecPair q.recs).2)
    (h3 : d.cur_header = q.cur_header)
    (h4 : d.cur_seq = q.cur_seq) :
    (lines.foldl dedupStep d).seqs
        = (dedupSpecPair (lines.foldl parseStep q).recs).1 ∧
    (lines.foldl dedupStep d).order
        = (dedupSpecPair (lines.foldl parseStep q).recs).2 ∧
    (lines.foldl dedupStep d).cur_header = (lines.foldl parseStep q).cur_header ∧
    (lines.foldl dedupStep d).cur_seq = (lines.foldl parseStep q).cur_seq := by
  induction lines generalizing d q with
  | nil => exact ⟨h1, h2, h3, h4⟩
  | cons raw rest ih =>
    obtain ⟨g1, g2, g3, g4⟩ := dedupStep_refines d q h1 h2 h3 h4 raw
    exact ih (dedupStep d raw) (parseStep q raw) g1 g2 g3 g4

/-- The deduplicator's output on a file is exactly the record-level
deduplication of the file's parsed records. -/
theorem eliminate_eq_dedupOutput (lines : List (List Char)) :
    eliminate_duplicates_in_file lines = dedupOutput (parseRecords lines) := by
  obtain ⟨g1, g2, g3, g4⟩ :=
    dedup_foldl_refines lines ⟨[], [], none, []⟩ ⟨[], none, []⟩ rfl rfl rfl rfl
  simp only [eliminate_duplicates_in_file, dedupOutput, parseRecords]
  cases hch : (lines.foldl parseStep ⟨[], none, []⟩).cur_header with
  | none =>
    have hfin : dedupFinal (lines.foldl dedupStep ⟨[], [], none, []⟩)
        = ((dedupSpecPair (lines.foldl parseStep ⟨[], none, []⟩).recs).1,
           (dedupSpecPair (lines.foldl parseStep ⟨[], none, []⟩).recs).2) := by
      unfold dedupFinal
      rw [g3, hch]
      rw [g1, g2]
    rw [hfin]
  | some h =>
    have hfin : dedupFinal (lines.foldl dedupStep ⟨[], [], none, []⟩)
        = dedupSpecPair ((lines.foldl parseStep ⟨[], none, []⟩).recs
            ++ [(h, cleanSeq (lines.foldl parseStep ⟨[], none, []⟩).cur_seq)]) := by
      unfold dedupFinal
      rw [g3, hch, dedupSpecPair_concat]
      rw [g1, g2, g4]
      rfl
    rw [hfin]

theorem keepLongestFrom_le (q : List Char × List Char)
    (qs : List (List Char × List Char)) :
    ∀ x ∈ q :: qs, x.2.length ≤ (keepLongestFrom q qs).2.length := by
  induction qs generalizing q with
  | nil =>
    intro x hx
    rcases List.mem_cons.mp hx with h | h
    · rw [h]
      exact Nat.le_refl _
    · simp at h
  | cons a rest ih =>
    intro x hx
    have hstep : keepLongestFrom q (a :: rest)
        = keepLongestFrom (if q.2.length < a.2.length then a else q) rest := rfl
    have hq : q.2.length ≤ (if q.2.length < a.2.length then a else q).2.length := by
      by_cases hlen : q.2.length < a.2.length
      · rw [if_pos hlen]
        exact Nat.le_of_lt hlen
      · rw [if_neg hlen]
    have ha : a.2.length ≤ (if q.2.length < a.2.length then a else q).2.length := by
      by_cases hlen : q.2.length < a.2.length
      · rw [if_pos hlen]
      · rw [if_neg hlen]
        exact Nat.le_of_not_lt hlen
    have hb := ih (if q.2.length < a.2.length then a else q)
    rcases List.mem_cons.mp hx with h | h
    · rw [h, hstep]
      exact Nat.le_trans hq (hb _ (List.mem_cons_self _ _))
    · rcases List.mem_cons.mp h with h2 | h2
      · rw [h2, hstep]
        exact Nat.le_trans ha (hb _ (List.mem_cons_self _ _))
      · rw [hstep]
        exact hb x (List.mem_cons_of_mem _ h2)

theorem filterMap_lookup_map_key
    (m : List (List Char × (List Char × List Char))) (ord : List (List Char))
    (h : ∀ k ∈ ord, ∃ v, List.lookup k m = some v ∧
        extract_accession_id v.1 = some k) :
    (ord.filterMap (fun x => List.lookup x m)).map
        (fun r => extract_accession_id r.1)
      = ord.map some := by
  induction ord with
  | nil => rfl
  | cons k rest ih =>
    obtain ⟨v, hv, hk⟩ := h k (List.mem_cons_self k rest)
    rw [List.filterMap_cons, hv]
    simp only [List.map_cons, hk]
    rw [ih (fun x hx => h x (List.mem_cons_of_mem k hx))]

theorem countP_keyIs_le_one
    (m : List (List Char × (List Char × List Char))) (ord : List (List Char))
    (k : List Char) (hnodup : ord.Nodup)
    (h : ∀ k' v, k' ∈ ord → List.lookup k' m = some v →
        extract_accession_id v.1 = some k') :
    ((ord.filterMap (fun x => List.lookup x m)).countP (keyIs k)) ≤ 1 := by
  induction ord with
  | nil => simp
  | cons k0 rest ih =>
    have hnr : rest.Nodup := (List.nodup_cons.mp hnodup).2
    have hr : ∀ k' v, k' ∈ rest → List.lookup k' m = some v →
        extract_accession_id v.1 = some k' :=
      fun k' v hk' => h k' v (List.mem_cons_of_mem k0 hk')
    rw [List.filterMap_cons]
    cases hl : List.lookup k0 m with
    | none => exact ih hnr hr
    | some v =>
      rw [List.countP_cons]
      by_cases hkk : k0 = k
      · subst hkk
        have hrest : ((rest.filterMap (fun x => List.lookup x m)).countP
            (keyIs k0)) = 0 := by
          rw [List.countP_eq_zero]
          intro r hrr
          obtain ⟨k', hk', hlk⟩ := List.mem_filterMap.mp hrr
          have hex : extract_accession_id r.1 = some k' := hr k' r hk' hlk
          have hne : k' ≠ k0 :=
            fun he => (List.nodup_cons.mp hnodup).1 (he ▸ hk')
          simp only [keyIs, hex]
          intro hh
          exact hne (Option.some.inj (beq_iff_eq.mp hh))
        rw [hrest]
        by_cases hkv : keyIs k0 v = true
        · rw [if_pos hkv]
        · rw [if_neg hkv]
          omega
      · have hkv : keyIs k v = false := by
          have hex : extract_accession_id v.1 = some k0 :=
            h k0 v (List.mem_cons_self k0 rest) hl
          simp only [keyIs, hex]
          exact beq_false_of_ne (fun hh => hkk (Option.some.inj hh))
        rw [hkv]
        simp only [Bool.false_eq_true, if_false, Nat.add_zero]
        exact ih hnr hr

/-- C1: for every file and every nonempty deduplication key `k`, the output
of `eliminate_duplicates_in_file` contains at most one record with key `k`;
that record's cleaned-sequence length is `≥` the length of every record of
the file sharing key `k`; and it is exactly the record selected by the
first-seen/strictly-longer replacement policy (`keepLongestFrom`), so equal
lengths keep the first-seen record. -/
theorem dedup_keeps_longest (lines : List (List Char)) (k : List Char)
    (hk : k ≠ []) :
    ((eliminate_duplicates_in_file lines).countP (keyIs k)) ≤ 1 ∧
    ∀ r ∈ eliminate_duplicates_in_file lines, keyIs k r = true →
      (∀ q ∈ keyRecs k (parseRecords lines), q.2.length ≤ r.2.length) ∧
      ∀ q qs, keyRecs k (parseRecords lines) = q :: qs →
        r = keepLongestFrom q qs := by
  rw [eliminate_eq_dedupOutput]
  obtain ⟨hkeys, hnodup, hent⟩ := dedupSpecPair_inv (parseRecords lines)
  constructor
  · exact countP_keyIs_le_one _ _ k hnodup
      (fun k' v _ hlk => (hent (k', v) (lookup_mem k' v _ hlk)).1)
  · intro r hr hkey
    obtain ⟨k', hk', hlk⟩ := List.mem_filterMap.mp hr
    have hex : extract_accession_id r.1 = some k' :=
      (hent (k', r) (lookup_mem k' r _ hlk)).1
    have hkk : k' = k := by
      have : extract_accession_id r.1 = some k := by
        have := (keyIs_true_iff k r).mp hkey
        exact this
      rw [hex] at this
      exact Option.some.inj this
    subst hkk
    have hlook := lookup_dedupSpecPair k' hk (parseRecords lines)
    rw [hlk] at hlook
    rcases hfil : keyRecs k' (parseRecords lines) with _ | ⟨q, qs⟩
    · rw [hfil] at hlook
      simp at hlook
    · rw [hfil] at hlook
      have hr_eq : r = keepLongestFrom q qs := by simpa using hlook
      constructor
      · intro x hx
        rw [hr_eq]
        exact keepLongestFrom_le q qs x (hfil ▸ hx)
      · intro q' qs' hfil'
        injection hfil' with hq hqs
        rw [← hq, ← hqs]
        exact hr_eq

/-- Witness for `dedup_keeps_longest` on a concrete file: key `"A"` occurs
twice (lengths 4 and 8) and the longer record is retained. -/
theorem dedup_keeps_longest_witness :
    ((eliminate_duplicates_in_file dedupDemoLines).countP (keyIs ['A'])) ≤ 1 ∧
    ∀ r ∈ eliminate_duplicates_in_file dedupDemoLines, keyIs ['A'] r = true →
      (∀ q ∈ keyRecs ['A'] (parseRecords dedupDemoLines),
          q.2.length ≤ r.2.length) ∧
      ∀ q qs, keyRecs ['A'] (parseRecords dedupDemoLines) = q :: qs →
        r = keepLongestFrom q qs :=
  dedup_keeps_longest dedupDemoLines ['A'] (by decide)

/-- C5: the records of the deduplicator's output appear in first-seen key
order — the key sequence of the output equals the order in which the
(nonempty) deduplication keys first appeared among the file's records. -/
theorem dedup_first_seen_order (lines : List (List Char)) :
    (eliminate_duplicates_in_file lines).map (fun r => extract_accession_id r.1)
      = (firstSeenKeys (parseRecords lines)).map some := by
  rw [eliminate_eq_dedupOutput, ← firstSeenKeys_eq_order]
  obtain ⟨hkeys, hnodup, hent⟩ := dedupSpecPair_inv (parseRecords lines)
  apply filterMap_lookup_map_key
  intro k hkmem
  obtain ⟨v, hv⟩ := lookup_isSome_of_mem_fst k _ (hkeys ▸ hkmem)
  exact ⟨v, hv, (hent (k, v) (lookup_mem k v _ hv)).1⟩

/-- C9: a record whose header starts with `'>'` but whose extracted accession
id is empty is dropped by the deduplicator: every output record carries a
nonempty key, no stored dict entry has an empty key, and the empty key is
never given a position in the emission order. -/
theorem dedup_drops_empty_key (lines : List (List Char)) :
    (∀ r ∈ eliminate_duplicates_in_file lines,
        ∃ k, extract_accession_id r.1 = some k ∧ k ≠ []) ∧
    (∀ e ∈ (dedupSpecPair (parseRecords lines)).1, e.1 ≠ []) ∧
    [] ∉ (dedupSpecPair (parseRecords lines)).2 := by
  obtain ⟨hkeys, hnodup, hent⟩ := dedupSpecPair_inv (parseRecords lines)
  refine ⟨?_, ?_, ?_⟩
  · rw [eliminate_eq_dedupOutput]
    intro r hr
    obtain ⟨k', hk', hlk⟩ := List.mem_filterMap.mp hr
    have := hent (k', r) (lookup_mem k' r _ hlk)
    exact ⟨k', this.1, this.2⟩
  · intro e he
    exact (hent e he).2
  · intro hmem
    rw [← hkeys] at hmem
    obtain ⟨e, he, hfst⟩ := List.mem_map.mp hmem
    exact (hent e he).2 hfst

/-- Witness for `dedup_drops_empty_key`: in a file whose first record has the
bare header `">"`, the surviving record `(">A;y", "GG")` has the nonempty key
`"A"`. -/
theorem dedup_drops_empty_key_witness :
    ∃ k, extract_accession_id ">A;y".toList = some k ∧ k ≠ [] :=
  (dedup_drops_empty_key
      [">".toList, "TT".toList, ">A;y".toList, "GG".toList]).1
    (">A;y".toList, "GG".toList) (by decide)

/-- C2 counterexample: file A's `converted` stage is persisted as successful,
yet re-running the pipeline converts A again, because `main` deletes the
state file at the start of every run. -/
theorem rerun_reconverts_after_clear :
    rerun_convert (some [("A.fasta".toList, { converted := true })])
        "A.txt".toList "X".toList
      = ConvertOutcome.wrote "X".toList ∧
    rerun_convert (some [("A.fasta".toList, { converted := true })])
        "A.txt".toList "X".toList ≠ ConvertOutcome.skipped := by
  constructor
  · decide
  · decide

/-- C2 amended: within one run (while the loaded state is intact),
`convert_single_txt` never re-executes the conversion of a file whose
`converted` stage is recorded successful — it skips the file. -/
theorem convert_skips_when_converted (state : WorkflowState)
    (file content : List Char)
    (h1 : ".txt".toList.isSuffixOf file = true)
    (h2 : stateConverted state (fileBase file) = true) :
    convert_single_txt state file content = ConvertOutcome.skipped := by
  unfold convert_single_txt
  rw [if_neg (fun hn => hn h1), if_pos h2]

/-- Witness for `convert_skips_when_converted`. -/
theorem convert_skips_when_converted_witness :
    convert_single_txt [("A.fasta".toList, { converted := true })]
        "A.txt".toList "X".toList = ConvertOutcome.skipped :=
  convert_skips_when_converted _ _ _ (by decide) (by decide)

theorem writeTmpLines_foldl (lines : List (List Char))
    (acc : List (List Char)) :
    lines.foldl (fun a l => a ++ [preprocess_line l]) acc
      = acc ++ lines.map preprocess_line := by
  induction lines generalizing acc with
  | nil => simp
  | cons l rest ih => simp [ih]

/-- C6: header normalization is atomic per file — whenever the run fails,
at any point `n` of the loop, the original file is unchanged and the
temporary file is gone; and on success the original holds exactly the
per-line normalization and the temporary file is gone. -/
theorem preprocess_atomic (file : List (List Char)) (n : Nat) :
    (preprocess_single_fasta_run file (some n)).original = file ∧
    (preprocess_single_fasta_run file (some n)).tmp = none ∧
    (preprocess_single_fasta_run file none).original
        = file.map preprocess_line ∧
    (preprocess_single_fasta_run file none).tmp = none := by
  refine ⟨rfl, rfl, ?_, rfl⟩
  show writeTmpLines file = file.map preprocess_line
  rw [writeTmpLines, writeTmpLines_foldl]
  simp

/-- C8 counterexample: the single byte `0xFF` is not valid UTF-8; the read
decodes it to U+FFFD and the write re-encodes that as `EF BF BD`, so the
converted file's bytes differ from the input's. -/
theorem convert_not_byte_identical :
    convert_file_bytes [255] ≠ [255] := by decide

/-- Even valid UTF-8 input is not passed through byte-for-byte when it
contains carriage returns: the text-mode read translates `"A\r\nB"` to
`"A\nB"`. This forces the no-CR hypothesis of the amended theorem. -/
theorem convert_translates_crlf :
    convert_file_bytes [65, 13, 10, 66] = [65, 10, 66] := by decide

theorem universalNewlines_eq_self (cs : List Nat) (h : 13 ∉ cs) :
    universalNewlines cs = cs := by
  induction cs with
  | nil => rfl
  | cons c rest ih =>
    have hc : c ≠ 13 := fun he => h (he ▸ List.mem_cons_self c rest)
    have hrest : 13 ∉ rest := fun hm => h (List.mem_cons_of_mem c hm)
    rw [show universalNewlines (c :: rest) = c :: universalNewlines rest by
      cases rest with
      | nil => simp [universalNewlines, hc]
      | cons b rest1 => simp [universalNewlines, hc]]
    rw [ih hrest]

theorem utf8Cont3_valid (c : Nat) (h1 : 2048 ≤ c) (h2 : c < 65536)
    (hs : ScalarValue c) :
    utf8Cont3 (224 + c / 4096) (128 + c / 64 % 64) = true := by
  unfold ScalarValue at hs
  unfold utf8Cont3
  by_cases h224 : 224 + c / 4096 = 224
  · rw [if_pos h224]
    simp only [decide_eq_true_eq]
    omega
  · rw [if_neg h224]
    by_cases h237 : 224 + c / 4096 = 237
    · rw [if_pos h237]
      simp only [decide_eq_true_eq]
      omega
    · rw [if_neg h237]
      simp only [decide_eq_true_eq]
      omega

theorem utf8Cont4_valid (c : Nat) (h1 : 65536 ≤ c) (h2 : c < 1114112) :
    utf8Cont4 (240 + c / 262144) (128 + c / 4096 % 64) = true := by
  unfold utf8Cont4
  by_cases h240 : 240 + c / 262144 = 240
  · rw [if_pos h240]
    simp only [decide_eq_true_eq]
    omega
  · rw [if_neg h240]
    by_cases h244 : 240 + c / 262144 = 244
    · rw [if_pos h244]
      simp only [decide_eq_true_eq]
      omega
    · rw [if_neg h244]
      simp only [decide_eq_true_eq]
      omega

theorem utf8DecodeAux_encode (cs : List Nat) (hval : ∀ c ∈ cs, ScalarValue c)
    (fuel : Nat) (hfuel : (utf8Encode cs).length ≤ fuel) :
    utf8DecodeAux fuel (utf8Encode cs) = cs := by
  induction cs generalizing fuel with
  | nil => cases fuel <;> rfl
  | cons c cs' ih =>
    have hc : ScalarValue c := hval c (List.mem_cons_self c cs')
    have hcs' : ∀ x ∈ cs', ScalarValue x :=
      fun x hx => hval x (List.mem_cons_of_mem c hx)
    have hcbound : c < 1114112 := by
      unfold ScalarValue at hc
      omega
    have henc : utf8Encode (c :: cs') = utf8EncodeChar c ++ utf8Encode cs' := by
      simp [utf8Encode]
    rw [henc] at hfuel ⊢
    by_cases h1 : c < 128
    · rw [show utf8EncodeChar c = [c] by
        unfold utf8EncodeChar; rw [if_pos h1]] at hfuel ⊢
      cases fuel with
      | zero => simp at hfuel
      | succ f =>
        rw [List.cons_append, List.nil_append]
        rw [show utf8DecodeAux (f + 1) (c :: utf8Encode cs')
            = c :: utf8DecodeAux f (utf8Encode cs') by
          simp only [utf8DecodeAux, if_pos h1]]
        rw [ih hcs' f (by simp at hfuel; omega)]
    · by_cases h2 : c < 2048
      · rw [show utf8EncodeChar c = [192 + c / 64, 128 + c % 64] by
          unfold utf8EncodeChar; rw [if_neg h1, if_pos h2]] at hfuel ⊢
        cases fuel with
        | zero => simp at hfuel
        | succ f =>
          rw [List.cons_append, List.cons_append, List.nil_append]
          simp only [utf8DecodeAux]
          rw [if_neg (show ¬ (192 + c / 64 < 128) by omega)]
          rw [if_pos (show 194 ≤ 192 + c / 64 ∧ 192 + c / 64 ≤ 223 by
            constructor <;> omega)]
          rw [if_pos (show 128 ≤ 128 + c % 64 ∧ 128 + c % 64 ≤ 191 by
            constructor <;> omega)]
          rw [show (192 + c / 64 - 192) * 64 + (128 + c % 64 - 128) = c by
            omega]
          rw [ih hcs' f (by simp at hfuel; omega)]
      · by_cases h3 : c < 65536
        · rw [show utf8EncodeChar c
              = [224 + c / 4096, 128 + c / 64 % 64, 128 + c % 64] by
            unfold utf8EncodeChar; rw [if_neg h1, if_neg h2, if_pos h3]]
            at hfuel ⊢
          cases fuel with
          | zero => simp at hfuel
          | succ f =>
            rw [List.cons_append, List.cons_append, List.cons_append,
              List.nil_append]
            simp only [utf8DecodeAux]
            rw [if_neg (show ¬ (224 + c / 4096 < 128) by omega)]
            rw [if_neg (show ¬ (194 ≤ 224 + c / 4096 ∧ 224 + c / 4096 ≤ 223)
              by omega)]
            rw [if_pos (show 224 ≤ 224 + c / 4096 ∧ 224 + c / 4096 ≤ 239 by
              constructor <;> omega)]
            rw [if_pos (utf8Cont3_valid c (by omega) h3 hc)]
            rw [if_pos (show 128 ≤ 128 + c % 64 ∧ 128 + c % 64 ≤ 191 by
              constructor <;> omega)]
            rw [show (224 + c / 4096 - 224) * 4096 + (128 + c / 64 % 64 - 128)
                * 64 + (128 + c % 64 - 128) = c by omega]
            rw [ih hcs' f (by simp at hfuel; omega)]
        · rw [show utf8EncodeChar c
              = [240 + c / 262144, 128 + c / 4096 % 64, 128 + c / 64 % 64,
                 128 + c % 64] by
            unfold utf8EncodeChar; rw [if_neg h1, if_neg h2, if_neg h3]]
            at hfuel ⊢
          cases fuel with
          | zero => simp at hfuel
          | succ f =>
            rw [List.cons_append, List.cons_append, List.cons_append,
              List.cons_append, List.nil_append]
            simp only [utf8DecodeAux]
            rw [if_neg (show ¬ (240 + c / 262144 < 128) by omega)]
            rw [if_neg (show ¬ (194 ≤ 240 + c / 262144
                ∧ 240 + c / 262144 ≤ 223) by omega)]
            rw [if_neg (show ¬ (224 ≤ 240 + c / 262144
                ∧ 240 + c / 262144 ≤ 239) by omega)]
            rw [if_pos (show 240 ≤ 240 + c / 262144
                ∧ 240 + c / 262144 ≤ 244 by constructor <;> omega)]
            rw [if_pos (utf8Cont4_valid c (by omega) hcbound)]
            rw [if_pos (show 128 ≤ 128 + c / 64 % 64 ∧ 128 + c / 64 % 64 ≤ 191
              by constructor <;> omega)]
            rw [if_pos (show 128 ≤ 128 + c % 64 ∧ 128 + c % 64 ≤ 191 by
              constructor <;> omega)]
            rw [show (240 + c / 262144 - 240) * 262144
                + (128 + c / 4096 % 64 - 128) * 4096
                + (128 + c / 64 % 64 - 128) * 64 + (128 + c % 64 - 128) = c by
              omega]
            rw [ih hcs' f (by simp at hfuel; omega)]

/-- C8 amended: the converter's output is byte-for-byte identical to the
input whenever the input file's bytes are valid UTF-8 and its text contains
no carriage return. On other input the bytes change: undecodable bytes are
replaced by U+FFFD on read (`convert_not_byte_identical`), and the text-mode
read translates `"\r\n"` and `"\r"` to `"\n"` (`convert_translates_crlf`). -/
theorem convert_bytes_passthrough_of_valid_utf8 (bs cs : List Nat)
    (hval : ∀ c ∈ cs, ScalarValue c) (hcr : 13 ∉ cs)
    (henc : bs = utf8Encode cs) :
    convert_file_bytes bs = bs := by
  subst henc
  unfold convert_file_bytes utf8DecodeReplace
  rw [utf8DecodeAux_encode cs hval _ (Nat.le_refl _),
    universalNewlines_eq_self cs hcr]

/-- Witness for `convert_bytes_passthrough_of_valid_utf8`: the bytes of the
two-character string `"Aé"` (no carriage return). -/
theorem convert_bytes_passthrough_witness :
    convert_file_bytes [65, 195, 169] = [65, 195, 169] :=
  convert_bytes_passthrough_of_valid_utf8 [65, 195, 169] [65, 233]
    (by decide) (by decide) (by decide)
